import Mathlib

/-!
Shallow embedding of the QA-Prolog semantic lowering engine: the AST
preprocessing pass (`RejectUnimplemented`, `FindByType`, `AtomNames`) and the
Verilog emitter (`verilog.go`).  Go functions that can call `ParseError`,
`notify.Fatal*` or panic are modelled as `Option`-returning functions, with
`none` standing for program abort.  Machine strings are Lean `String`s;
the Go `unicode` character classes are modelled on their ASCII fragment,
which covers every character the surrounding parser can feed them.
-/

/-- Node type tags of the AST (the closed set used by the compiler). -/
inductive ASTNodeType where
  | NumeralType
  | AtomType
  | VariableType
  | ClauseType
  | ListType
  | StructureType
  | UnaryOpType
  | AdditiveOpType
  | MultiplicativeOpType
  | RelationOpType
  | PrimaryExprType
  | UnaryExprType
  | MultiplicativeExprType
  | AdditiveExprType
  | RelationType
  | PredicateType
  | TermType
deriving DecidableEq, Repr

/-- Source position of an AST node (line and column). -/
structure Position where
  line : Nat
  col : Nat
deriving DecidableEq, Repr

/-- The dynamically typed `Value` payload of an AST node: a string (atoms,
variables, operators), a non-negative integer (numerals), or nothing. -/
inductive ASTValue where
  | str (s : String)
  | num (n : Nat)
  | nil
deriving DecidableEq, Repr

/-- An AST node: type tag, payload, raw text, source position, children.
Mirrors the Go `ASTNode` struct fields `Type`, `Value`, `Text`, `Pos`,
`Children`. -/
inductive ASTNode where
  | mk (typ : ASTNodeType) (value : ASTValue) (text : String) (pos : Position)
      (children : List ASTNode)

/-- Projection of the node's type tag (Go field `Type`). -/
def ASTNode.typ : ASTNode → ASTNodeType
  | ASTNode.mk t _ _ _ _ => t

/-- Projection of the node's payload (Go field `Value`). -/
def ASTNode.value : ASTNode → ASTValue
  | ASTNode.mk _ v _ _ _ => v

/-- Projection of the node's raw source text (Go field `Text`). -/
def ASTNode.text : ASTNode → String
  | ASTNode.mk _ _ tx _ _ => tx

/-- Projection of the node's source position (Go field `Pos`). -/
def ASTNode.pos : ASTNode → Position
  | ASTNode.mk _ _ _ p _ => p

/-- Projection of the node's child list (Go field `Children`). -/
def ASTNode.children : ASTNode → List ASTNode
  | ASTNode.mk _ _ _ _ cs => cs

mutual

/-- FindByType walks an AST and returns a list of all nodes of a given type,
in depth-first pre-order: the node itself first, then its children left to
right, each child's subtree completely before the next. -/
def FindByType : ASTNode → ASTNodeType → List ASTNode
  | ASTNode.mk t v tx p cs, ty =>
    (if t = ty then [ASTNode.mk t v tx p cs] else []) ++ FindByTypeList cs ty

/-- Helper of `FindByType`: the walker applied to each node of a list in
order. -/
def FindByTypeList : List ASTNode → ASTNodeType → List ASTNode
  | [], _ => []
  | c :: cs, ty => FindByType c ty ++ FindByTypeList cs ty

end

mutual

/-- Depth-first pre-order enumeration of all nodes of an AST.  This is the
specification-side notion of traversal order used to state which node is
"the first node of a given type". -/
def preorder : ASTNode → List ASTNode
  | ASTNode.mk t v tx p cs => ASTNode.mk t v tx p cs :: preorderList cs

/-- Helper of `preorder`: pre-order enumeration of a forest. -/
def preorderList : List ASTNode → List ASTNode
  | [] => []
  | c :: cs => preorder c ++ preorderList cs

end

/-- RejectUnimplemented aborts (with a position-tagged, user-facing message)
if the AST contains a list node, else if it contains a structure node;
otherwise it succeeds.  `ParseError` terminates the process in Go, so the
check for structures is only reached when no list node exists; the result
models `some (pos, msg)` = abort, `none` = silent success. -/
def RejectUnimplemented (a : ASTNode) : Option (Position × String) :=
  match FindByType a ASTNodeType.ListType with
  | n :: _ => some (n.pos, "Lists are not currently supported")
  | [] =>
    match FindByType a ASTNodeType.StructureType with
    | n :: _ => some (n.pos, "Structures are not currently supported")
    | [] => none

mutual

/-- Collector behind `AtomNames`: every atom payload in the tree, except
that when the current node is a clause its first child is skipped entirely.
A non-string payload on an atom is a fatal internal error (`none`).  The Go
function fills a set; the collection order is irrelevant because `AtomNames`
sorts, so the collector returns the payloads as a list. -/
def uniqueAtomNames : ASTNode → Option (List String)
  | ASTNode.mk t v _ _ cs => do
    let here : List String ←
      if t = ASTNodeType.AtomType then
        match v with
        | ASTValue.str s => some [s]
        | _ => none
      else some []
    let rest ←
      if t = ASTNodeType.ClauseType then
        match cs with
        | [] => some []
        | _ :: kids => uniqueAtomNamesList kids
      else uniqueAtomNamesList cs
    return here ++ rest

/-- Helper of `uniqueAtomNames`: the collector applied to each node of a
list in order. -/
def uniqueAtomNamesList : List ASTNode → Option (List String)
  | [] => some []
  | c :: cs => do
    let a ← uniqueAtomNames c
    let b ← uniqueAtomNamesList cs
    return a ++ b

end

/-- Byte-wise lexicographic order on character lists, the order `sort.Strings`
uses on (ASCII) strings. -/
def lexLe : List Char → List Char → Bool
  | [], _ => true
  | _ :: _, [] => false
  | a :: as, b :: bs => if a < b then true else if b < a then false else lexLe as bs

/-- String comparison used to model Go's `sort.Strings`. -/
def strLe (x y : String) : Bool :=
  lexLe x.data y.data

/-- AtomNames returns the sorted list of the distinct atom names collected by
`uniqueAtomNames` (Go: map keys extracted and sorted with `sort.Strings`). -/
def AtomNames (a : ASTNode) : Option (List String) :=
  (uniqueAtomNames a).map fun l =>
    List.insertionSort (fun x y => strLe x y = true) l.dedup

/-- The fixed 26-letter alphabet of `numToVerVar` (Go constant `chars`). -/
def chars : List Char :=
  "ABCDEFGHIJKLMNOPQRSTUVWXYZ".data

/-- Letter of the alphabet at a given index (Go `chars[n:n+1]`; the default
is never reached at the indices the encoder uses). -/
def letter (n : Nat) : Char :=
  chars.getD n 'A'

/-- numToVerVar converts a parameter number from 0-701 (e.g., 5) to a Verilog
variable (e.g., "$E" prefixed with the sigil).  Numbers of 702 and above are
a fatal "Too many parameters" error, modelled as `none`. -/
def numToVerVar (n : Nat) : Option String :=
  if n < 26 then some (String.mk ['$', letter n])
  else if n < 26 * (26 + 1) then
    some (String.mk ['$', letter (n / 26 - 1), letter (n % 26)])
  else none

/-- Lookup in an association list, modelling a Go map whose insertions only
ever add fresh keys. -/
def alookup {α : Type} (k : String) : List (String × α) → Option α
  | [] => none
  | (k2, v) :: rest => if k = k2 then some v else alookup k rest

/-- Program parameters (Go struct `Parameters`): program name, input file
name, integer bit width, the externally built symbol table (`IntToSym`) and
clause grouping (`TopLevel`).  `TopLevel` is a Go map from predicate name to
clause list; it is modelled as an association list, with the map's iteration
order supplied separately where it matters. -/
structure Parameters where
  ProgName : String
  InFileName : String
  IntBits : Nat
  IntToSym : List String
  TopLevel : List (String × List ASTNode)

/-- Identifier-generating loop of `args`: one `numToVerVar` identifier per
term, numbering the terms upward from `i`. -/
def argIds : List ASTNode → Nat → Option (List String)
  | [], _ => some []
  | _ :: rest, i => do
    let v ← numToVerVar i
    let vs ← argIds rest (i + 1)
    return v :: vs

/-- args retrieves a clause's arguments in both Prolog (raw source text) and
Verilog (generated identifier) format.  The clause's first child is its head
predicate; the head's children after the name are the terms.  A clause with
no children would make Go panic, and a term index of 702 or more makes
`numToVerVar` abort; both are `none`. -/
def args (c : ASTNode) : Option (List String × List String) :=
  match c.children with
  | [] => none
  | pred :: _ => do
    let terms := pred.children.drop 1
    let vArgs ← argIds terms 0
    return (terms.map fun a => a.text, vArgs)

/-- prologToVerilogUnary maps a Prolog unary operator to a Verilog unary
operator (Go map of the same name; a miss is a fatal internal error at the
lookup site). -/
def prologToVerilogUnary (s : String) : Option String :=
  if s = "-" then some "-" else none

/-- prologToVerilogAdd maps a Prolog additive operator to a Verilog additive
operator. -/
def prologToVerilogAdd (s : String) : Option String :=
  if s = "+" then some "+"
  else if s = "-" then some "-"
  else none

/-- prologToVerilogMult maps a Prolog multiplicative operator to a Verilog
multiplicative operator. -/
def prologToVerilogMult (s : String) : Option String :=
  if s = "*" then some "*" else none

/-- prologToVerilogRel maps a Prolog relational operator to a Verilog
relational operator; "is" is mapped to equality and "\=" to inequality. -/
def prologToVerilogRel (s : String) : Option String :=
  if s = "<=" then some "<="
  else if s = ">=" then some ">="
  else if s = "<" then some "<"
  else if s = ">" then some ">"
  else if s = "=" then some "=="
  else if s = "\\=" then some "!="
  else if s = "is" then some "=="
  else none

/-- toVerilogExpr recursively converts an AST, starting from a clause's body
predicate, to a Verilog expression string, given the clause's map from
Prolog variable names to Verilog identifiers.  Fatal internal errors of the
Go function (payload type assertion failures, unmapped operators, unbound
variables, missing children, unexpected node types) are `none`. -/
def toVerilogExpr : ASTNode → List (String × String) → Option String
  | ASTNode.mk t v tx _ cs, p2v =>
    match t with
    | ASTNodeType.NumeralType => some tx
    | ASTNodeType.AtomType =>
      match v with
      | ASTValue.str s => some s
      | _ => none
    | ASTNodeType.VariableType =>
      match v with
      | ASTValue.str s => alookup s p2v
      | _ => none
    | ASTNodeType.UnaryOpType =>
      match v with
      | ASTValue.str s => prologToVerilogUnary s
      | _ => none
    | ASTNodeType.AdditiveOpType =>
      match v with
      | ASTValue.str s => prologToVerilogAdd s
      | _ => none
    | ASTNodeType.MultiplicativeOpType =>
      match v with
      | ASTValue.str s => prologToVerilogMult s
      | _ => none
    | ASTNodeType.RelationOpType =>
      match v with
      | ASTValue.str s => prologToVerilogRel s
      | _ => none
    | ASTNodeType.PrimaryExprType =>
      match cs with
      | c :: _ => do
        let r ← toVerilogExpr c p2v
        match v with
        | ASTValue.str s => if s = "()" then some ("(" ++ r ++ ")") else some r
        | _ => none
      | [] => none
    | ASTNodeType.UnaryExprType =>
      match cs with
      | [c] => toVerilogExpr c p2v
      | c0 :: c1 :: _ => do
        let r0 ← toVerilogExpr c0 p2v
        let r1 ← toVerilogExpr c1 p2v
        return r0 ++ r1
      | [] => none
    | ASTNodeType.MultiplicativeExprType =>
      match cs with
      | [c] => toVerilogExpr c p2v
      | c0 :: c1 :: c2 :: _ => do
        let r0 ← toVerilogExpr c0 p2v
        let r1 ← toVerilogExpr c1 p2v
        let r2 ← toVerilogExpr c2 p2v
        return r0 ++ r1 ++ r2
      | _ => none
    | ASTNodeType.AdditiveExprType =>
      match cs with
      | [c] => toVerilogExpr c p2v
      | c0 :: c1 :: c2 :: _ => do
        let r0 ← toVerilogExpr c0 p2v
        let r1 ← toVerilogExpr c1 p2v
        let r2 ← toVerilogExpr c2 p2v
        return r0 ++ " " ++ r1 ++ " " ++ r2
      | _ => none
    | ASTNodeType.RelationType =>
      match cs with
      | c0 :: c1 :: c2 :: _ => do
        let r0 ← toVerilogExpr c0 p2v
        let r1 ← toVerilogExpr c1 p2v
        let r2 ← toVerilogExpr c2 p2v
        return r0 ++ " " ++ r1 ++ " " ++ r2
      | _ => none
    | ASTNodeType.PredicateType =>
      match cs with
      | c :: _ => toVerilogExpr c p2v
      | [] => none
    | ASTNodeType.TermType =>
      match cs with
      | c :: _ => toVerilogExpr c p2v
      | [] => none
    | _ => none

/-- ASCII fragment of Go's `unicode.IsLower` (the only characters the parser
can put at the head of an argument's text are ASCII). -/
def isLowerGo (c : Char) : Bool :=
  'a' ≤ c && c ≤ 'z'

/-- ASCII fragment of Go's `unicode.IsDigit`. -/
def isDigitGo (c : Char) : Bool :=
  '0' ≤ c && c ≤ '9'

/-- ASCII fragment of Go's `unicode.IsUpper`. -/
def isUpperGo (c : Char) : Bool :=
  'A' ≤ c && c ≤ 'Z'

/-- Whether a string's first character is an (ASCII) uppercase letter: the
classifier's test for a logic variable (false on the empty string). -/
def headIsUpper (s : String) : Bool :=
  match s.data with
  | [] => false
  | c :: _ => isUpperGo c

/-- Whether a string's first character is an (ASCII) lowercase letter or a
digit: the classifier's tests for a symbolic constant or a numeral. -/
def headIsLowerOrDigit (s : String) : Bool :=
  match s.data with
  | [] => false
  | c :: _ => isLowerGo c || isDigitGo c

/-- Classification of one formal argument by the first character of its raw
text `a` (Go `process`, the `switch` on `rune(a[0])`): lowercase yields a
symbol-match constraint, a digit a numeral-match constraint, uppercase (a
variable) no constraint, and anything else is the unconditional internal
fatal path `notify.Fatalf("Internal error processing %q", a)`, modelled as
`none` (as is the panic Go would raise indexing an empty text). -/
def classifyArg (a v : String) : Option (List String) :=
  match a.data with
  | [] => none
  | c :: _ =>
    if isLowerGo c then some [v ++ " == `" ++ a]
    else if isDigitGo c then some [v ++ " == " ++ a]
    else if isUpperGo c then some []
    else none

/-- Classification loop of `process` over the (Prolog text, Verilog
identifier) argument pairs, concatenating the emitted constraints in
argument order. -/
def classifyAll : List (String × String) → Option (List String)
  | [] => some []
  | (a, v) :: rest => do
    let c1 ← classifyArg a v
    let cs ← classifyAll rest
    return c1 ++ cs

/-- Body loop of `process`: each body predicate (clause child after the
head) is lowered by `toVerilogExpr` to one boolean constraint. -/
def bodyExprs : List ASTNode → List (String × String) → Option (List String)
  | [], _ => some []
  | b :: bs, p2v => do
    let e ← toVerilogExpr b p2v
    let rest ← bodyExprs bs p2v
    return e :: rest

/-- process converts each predicate in a clause to a validity constraint:
first the per-argument literal-match constraints in argument order, then one
constraint per body predicate. -/
def process (c : ASTNode) (p2v : List (String × String)) : Option (List String) := do
  let pv ← args c
  let headCons ← classifyAll (pv.1.zip pv.2)
  let bodyCons ← bodyExprs (c.children.drop 1) p2v
  return headCons ++ bodyCons

/-- The substitution-map loop at the top of `writeClauseBody`: walking the
(Prolog text, Verilog identifier) pairs left to right, a text already bound
in the map emits the equality constraint "new identifier == first-occurrence
identifier"; an unbound text is bound to its identifier.  Returns the final
map and the equality constraints in emission order. -/
def buildP2V : List (String × String) → List (String × String) → List String →
    List (String × String) × List String
  | [], m, acc => (m, acc)
  | (p, v0) :: rest, m, acc =>
    match alookup p m with
    | some v => buildP2V rest m (acc ++ [v0 ++ " == " ++ v])
    | none => buildP2V rest ((p, v0) :: m) acc

/-- The constraint list of one clause (`writeClauseBody` before printing):
repeated-argument equality constraints, then the constraints from `process`;
if that union is empty, the single literal "1'b1" constraint. -/
def clauseValid (c : ASTNode) : Option (List String) := do
  let pv ← args c
  let bp := buildP2V (pv.1.zip pv.2) [] []
  let procCons ← process c bp.1
  let valid := bp.2 ++ procCons
  return if valid.isEmpty then ["1'b1"] else valid

/-- writeClauseBody prints, for clause number `cNum` (zero-based), one wire
declaration sized to the clause's constraint count and one assignment per
constraint bit.  The emitted text is returned. -/
def writeClauseBody (p : Parameters) (nm : String) (cNum : Nat) (c : ASTNode) :
    Option String := do
  let valid ← clauseValid c
  return "  wire [" ++ toString (valid.length - 1) ++ ":0] $v" ++
      toString (cNum + 1) ++ ";\n" ++
    String.join (valid.enum.map fun iv =>
      "  assign $v" ++ toString (cNum + 1) ++ "[" ++ toString iv.1 ++ "] = " ++
        iv.2 ++ ";\n")

/-- Separator-joining loop used by the emitter (Go pattern: print the
separator before every element except the first, then the element). -/
def commaJoin (sep : String) (xs : List String) : String :=
  xs.enum.foldl (fun acc iv => acc ++ (if iv.1 > 0 then sep else "") ++ iv.2) ""

/-- writeClauseGroupHeader writes a Verilog module header: the module line
listing the first clause's generated argument identifiers plus the "$valid"
output, one input declaration per argument (single-bit when the configured
width is 1), and the output declaration.  An empty clause group would make
Go panic on `cs[0]`; that and an argument-count overflow are `none`. -/
def writeClauseGroupHeader (p : Parameters) (nm : String) (cs : List ASTNode) :
    Option String := do
  let c0 ← cs.head?
  let pv ← args c0
  let vArgs := pv.2
  return "// Define " ++ nm ++ ".\n" ++
    "module \\" ++ nm ++ " (" ++ commaJoin ", " vArgs ++ ", $valid);\n" ++
    (if p.IntBits = 1 then
      String.join (vArgs.map fun a => "  input " ++ a ++ ";\n")
    else
      String.join (vArgs.map fun a =>
        "  input [" ++ toString (p.IntBits - 1) ++ ":0] " ++ a ++ ";\n")) ++
    "  output $valid;\n"

/-- The final OR over a clause group of size `k` (the loop at the end of
`writeClauseGroup`): the AND-reductions "&$v1" .. "&$vk" of the clauses'
validity vectors, joined by " | " in clause order. -/
def orReduction (k : Nat) : String :=
  commaJoin " | " ((List.range k).map fun i => "&$v" ++ toString (i + 1))

/-- Clause loop of `writeClauseGroup`: each clause's wire/assign block, the
clause at position `i` of the group being compiled with clause number `i`. -/
def clauseBodies (p : Parameters) (nm : String) : Nat → List ASTNode →
    Option (List String)
  | _, [] => some []
  | i, c :: rest => do
    let b ← writeClauseBody p nm i c
    let bs ← clauseBodies p nm (i + 1) rest
    return b :: bs

/-- writeClauseGroup writes a Verilog module for a group of clauses sharing
one name and arity: the header, then each clause's wire/assign block in
clause order (clause `i` defining vector "$v(i+1)"), then the module output
assignment OR-ing all clauses' AND-reduced bits, then "endmodule". -/
def writeClauseGroup (p : Parameters) (nm : String) (cs : List ASTNode) :
    Option String := do
  let hdr ← writeClauseGroupHeader p nm cs
  let bodies ← clauseBodies p nm 0 cs
  return hdr ++ String.join bodies ++
    "  assign $valid = " ++ orReduction cs.length ++ ";\nendmodule\n"

/-- Decimal digit-count loop of `writeSymbols` (Go:
`for n := len(p.IntToSym) - 1; n > 0; n /= 10 { digs++ }`).  The first
argument is structural fuel; the loop runs at most `n` times, so `n` itself
is always enough fuel. -/
def digitsLoop : Nat → Nat → Nat
  | 0, _ => 0
  | fuel + 1, n => if n = 0 then 0 else 1 + digitsLoop fuel (n / 10)

/-- Number of decimal digits of `n` as computed by `writeSymbols` (0 for 0). -/
def digitsFor (n : Nat) : Nat :=
  digitsLoop n n

/-- Left-justified space padding to a minimum width (Go `%-*s`). -/
def padRight (s : String) (w : Nat) : String :=
  s ++ String.mk (List.replicate (w - s.length) ' ')

/-- Right-justified space padding to a minimum width (Go `%*d` applied to an
already formatted number). -/
def padLeft (s : String) (w : Nat) : String :=
  String.mk (List.replicate (w - s.length) ' ') ++ s

/-- writeSymbols defines all of the program's symbols as Verilog constants:
one "`define" line per symbol-table entry, name column sized to the
configured bit width, value column sized to the table's decimal digit
count, value equal to the entry's index. -/
def writeSymbols (p : Parameters) : String :=
  let digs := digitsFor (p.IntToSym.length - 1)
  "// Define all of the symbols used in this program.\n" ++
    String.join (p.IntToSym.enum.map fun iv =>
      "`define " ++ padRight iv.2 p.IntBits ++ " " ++
        padLeft (toString iv.1) digs ++ "\n")

/-- Header comment block of `WriteVerilog` (source file name, converter
name, fixed commentary, bit width). -/
def headerText (p : Parameters) : String :=
  "// Verilog version of Prolog program " ++ p.InFileName ++ "\n" ++
    "// Conversion by " ++ p.ProgName ++
    ", written by Scott Pakin <pakin@lanl.gov>\n" ++
    "//\n// This program is intended to be passed to edif2qmasm, then to qmasm, and\n// finally run on a quantum annealer.\n//\n" ++
    "// Note: This program uses exclusively " ++ toString p.IntBits ++
    "-bit unsigned integers.\n\n"

/-- One iteration of the module-emission loop of `WriteVerilog`: the module
for the predicate group stored under the name `nm` in `TopLevel`. -/
def moduleOf (p : Parameters) (nm : String) : Option String := do
  let cs ← alookup nm p.TopLevel
  writeClauseGroup p nm cs

/-- Module-emission loop of `WriteVerilog`, over a given enumeration order
of the `TopLevel` keys. -/
def modulesFor (p : Parameters) : List String → Option (List String)
  | [] => some []
  | nm :: rest => do
    let m ← moduleOf p nm
    let ms ← modulesFor p rest
    return m :: ms

/-- WriteVerilog writes an entire preprocessed AST as Verilog code: header
comments, the symbol-constant table, then one module per `TopLevel` entry,
each preceded by a blank line.  Go iterates `TopLevel` with `range` over a
map, whose enumeration order is unspecified and varies between runs; that
enumeration order is therefore an explicit input `order` here (a run of the
Go program corresponds to some permutation `order` of the map's keys). -/
def WriteVerilog (a : ASTNode) (p : Parameters) (order : List String) :
    Option String :=
  (modulesFor p order).map fun mods =>
    headerText p ++ writeSymbols p ++ String.join (mods.map fun m => "\n" ++ m)

/-- Distinct alphabet indices below 26 give distinct letters. -/
theorem letter_inj : ∀ i < 26, ∀ j < 26, letter i = letter j → i = j := by decide

/-- Two `String.mk` values are equal only if their character lists are. -/
theorem string_mk_inj {a b : List Char} (h : String.mk a = String.mk b) : a = b :=
  congrArg String.data h

/-- C5: for `0 ≤ n < 26` the identifier encoder returns the sigil "$"
followed by the single letter at alphabet index `n`; for `26 ≤ n < 702` it
returns the sigil followed by two letters, the first at alphabet index
`n / 26 - 1` and the second at index `n % 26`; and every identifier it
produces begins with the sigil. -/
theorem numToVerVar_encoding :
    (∀ n : Nat, n < 26 → numToVerVar n = some (String.mk ['$', letter n])) ∧
    (∀ n : Nat, 26 ≤ n → n < 702 →
      numToVerVar n = some (String.mk ['$', letter (n / 26 - 1), letter (n % 26)])) ∧
    (∀ n : Nat, ∀ s : String, numToVerVar n = some s → s.data.head? = some '$') := by
  refine ⟨fun n h => by rw [numToVerVar, if_pos h], fun n h1 h2 => ?_, fun n s h => ?_⟩
  · rw [numToVerVar, if_neg (by omega), if_pos (by omega)]
  · unfold numToVerVar at h
    split at h
    · injection h with h2
      subst h2
      rfl
    · split at h
      · injection h with h2
        subst h2
        rfl
      · cases h

/-- Witness for `numToVerVar_encoding`, at n = 5 and n = 30. -/
theorem numToVerVar_encoding_witness :
    numToVerVar 5 = some (String.mk ['$', letter 5]) ∧
    numToVerVar 30 = some (String.mk ['$', letter (30 / 26 - 1), letter (30 % 26)]) ∧
    (String.mk ['$', letter (30 / 26 - 1), letter (30 % 26)]).data.head? = some '$' :=
  ⟨numToVerVar_encoding.1 5 (by decide),
   numToVerVar_encoding.2.1 30 (by decide) (by decide),
   numToVerVar_encoding.2.2 30 (String.mk ['$', letter (30 / 26 - 1), letter (30 % 26)])
     (numToVerVar_encoding.2.1 30 (by decide) (by decide))⟩

/-- C6: the identifier encoder is injective on [0, 702) — distinct parameter
numbers in range give distinct identifiers — and every n ≥ 702 is the fatal
"Too many parameters" abort instead of an identifier. -/
theorem numToVerVar_injective :
    (∀ m n : Nat, m < 702 → n < 702 → m ≠ n → numToVerVar m ≠ numToVerVar n) ∧
    (∀ n : Nat, 702 ≤ n → numToVerVar n = none) := by
  constructor
  · intro m n hm hn hne h
    by_cases h1 : m < 26 <;> by_cases h2 : n < 26
    · rw [numToVerVar, if_pos h1, numToVerVar, if_pos h2] at h
      injection h with h3
      have hd := string_mk_inj h3
      simp only [List.cons.injEq, and_true, true_and] at hd
      exact hne (letter_inj m h1 n h2 hd)
    · rw [numToVerVar, if_pos h1, numToVerVar, if_neg h2, if_pos (by omega)] at h
      injection h with h3
      exact absurd (string_mk_inj h3) (by simp)
    · rw [numToVerVar, if_neg h1, if_pos (by omega), numToVerVar, if_pos h2] at h
      injection h with h3
      exact absurd (string_mk_inj h3) (by simp)
    · rw [numToVerVar, if_neg h1, if_pos (by omega), numToVerVar, if_neg h2,
          if_pos (by omega)] at h
      injection h with h3
      have hd := string_mk_inj h3
      simp only [List.cons.injEq, and_true, true_and] at hd
      have e1 : m / 26 - 1 = n / 26 - 1 :=
        letter_inj (m / 26 - 1) (by omega) (n / 26 - 1) (by omega) hd.1
      have e2 : m % 26 = n % 26 :=
        letter_inj (m % 26) (by omega) (n % 26) (by omega) hd.2
      omega
  · intro n h
    rw [numToVerVar, if_neg (by omega), if_neg (by omega)]

/-- Witness for `numToVerVar_injective`, at the pair (0, 701) and at 702. -/
theorem numToVerVar_injective_witness :
    numToVerVar 0 ≠ numToVerVar 701 ∧ numToVerVar 702 = none :=
  ⟨numToVerVar_injective.1 0 701 (by decide) (by decide) (by decide),
   numToVerVar_injective.2 702 (by decide)⟩

mutual

/-- The type-filtered walker coincides with filtering the pre-order node
enumeration by the type tag. -/
theorem FindByType_eq_filter : (a : ASTNode) → (t : ASTNodeType) →
    FindByType a t = (preorder a).filter fun n => decide (n.typ = t)
  | ASTNode.mk ty v tx p cs, t => by
    rw [FindByType, preorder, List.filter_cons, FindByTypeList_eq_filter cs t]
    by_cases h : ty = t
    · subst h
      simp [ASTNode.typ]
    · simp [ASTNode.typ, h]

/-- Forest version of `FindByType_eq_filter`. -/
theorem FindByTypeList_eq_filter : (l : List ASTNode) → (t : ASTNodeType) →
    FindByTypeList l t = (preorderList l).filter fun n => decide (n.typ = t)
  | [], _ => rfl
  | c :: cs, t => by
    rw [FindByTypeList, preorderList, List.filter_append,
        FindByType_eq_filter c t, FindByTypeList_eq_filter cs t]

end

/-- The head of a filtered list is the first element satisfying the
predicate. -/
theorem head_of_filter {α : Type} (p : α → Bool) :
    (l : List α) → (l.filter p).head? = l.find? p
  | [] => rfl
  | x :: xs => by
    rw [List.filter_cons, List.find?_cons]
    by_cases h : p x = true
    · simp [h]
    · simp [h, head_of_filter p xs]

/-- C7: the unsupported-construct validator fails with the position of the
first list node in depth-first pre-order when one exists, else with the
position of the first structure node in pre-order when one exists, else
succeeds silently. -/
theorem rejectUnimplemented_first (a : ASTNode) :
    RejectUnimplemented a =
      match (preorder a).find? (fun n => decide (n.typ = ASTNodeType.ListType)) with
      | some n => some (n.pos, "Lists are not currently supported")
      | none =>
        match (preorder a).find? (fun n => decide (n.typ = ASTNodeType.StructureType)) with
        | some n => some (n.pos, "Structures are not currently supported")
        | none => none := by
  have h1 := head_of_filter (fun n => decide (n.typ = ASTNodeType.ListType)) (preorder a)
  have h2 := head_of_filter (fun n => decide (n.typ = ASTNodeType.StructureType)) (preorder a)
  unfold RejectUnimplemented
  rw [FindByType_eq_filter a ASTNodeType.ListType,
      FindByType_eq_filter a ASTNodeType.StructureType, ← h1, ← h2]
  cases (preorder a).filter (fun n => decide (n.typ = ASTNodeType.ListType)) with
  | nil =>
    cases (preorder a).filter (fun n => decide (n.typ = ASTNodeType.StructureType)) with
    | nil => rfl
    | cons n l => rfl
  | cons n l => rfl

/-- Concrete source position used by the concrete example trees. -/
def cPos : Position := ⟨1, 1⟩

/-- Concrete atom node with payload and raw text `s`. -/
def cAtom (s : String) : ASTNode :=
  ASTNode.mk ASTNodeType.AtomType (ASTValue.str s) s cPos []

/-- Concrete head-argument term node carrying raw text `s`. -/
def cTerm (s : String) : ASTNode :=
  ASTNode.mk ASTNodeType.TermType ASTValue.nil s cPos []

/-- Concrete clause head: a predicate node whose first child is the name
atom and whose remaining children are the argument terms. -/
def cHead (nm : String) (ts : List ASTNode) : ASTNode :=
  ASTNode.mk ASTNodeType.PredicateType ASTValue.nil nm cPos (cAtom nm :: ts)

/-- Concrete clause node: head first, then body predicates. -/
def cClause (h : ASTNode) (body : List ASTNode) : ASTNode :=
  ASTNode.mk ASTNodeType.ClauseType ASTValue.nil "" cPos (h :: body)

/-- The fact `foo(a).`: head name `foo`, one symbolic-constant argument,
the atom `a`. -/
def cFooA : ASTNode :=
  cClause (cHead "foo" [cAtom "a"]) []

/-- C1, evaluated on the fact `foo(a).`: the tree contains the atoms `foo`
(the head name) and `a` (a head argument), yet `AtomNames` returns the
empty list.  A clause's first child is its entire head (name plus argument
terms), so skipping it drops head-argument atoms together with the head
name; the claim — and the Go function's own comment, which says only "the
name of the clause itself" is skipped — require `a` to be kept. -/
theorem atomNames_drops_head_argument_atoms :
    AtomNames cFooA = some [] ∧
    (FindByType cFooA ASTNodeType.AtomType).map ASTNode.value =
      [ASTValue.str "foo", ASTValue.str "a"] :=
  ⟨rfl, rfl⟩

/-- A zero-argument fact, used by the concrete emitter examples. -/
def cFact (nm : String) : ASTNode :=
  cClause (cHead nm []) []

/-- Concrete parameters with a two-symbol table and two predicate groups
named "p" and "q". -/
def cParams : Parameters :=
  ⟨"qapl", "in.pl", 4, ["a", "b"], [("p", [cFact "p"]), ("q", [cFact "q"])]⟩

set_option maxRecDepth 40000 in
/-- C2 counterexample: on the same AST, parameters and tables, enumerating
the `TopLevel` map in the two opposite orders — each a permutation of
exactly its key set, as a Go `range` over the map yields — produces
different output texts.  Module order tracks the map's unspecified
iteration order, so two runs need not produce identical output. -/
theorem writeVerilog_not_order_invariant :
    (["p", "q"].Perm (cParams.TopLevel.map Prod.fst)) ∧
    (["q", "p"].Perm (cParams.TopLevel.map Prod.fst)) ∧
    WriteVerilog cFooA cParams ["p", "q"] ≠ WriteVerilog cFooA cParams ["q", "p"] :=
  ⟨by decide, by decide, by decide⟩

/-- A successful module-emission loop yields exactly the per-key modules. -/
theorem modulesFor_eq (p : Parameters) :
    ∀ (o l : List String), modulesFor p o = some l → l = o.filterMap (moduleOf p) := by
  intro o
  induction o with
  | nil =>
    intro l h
    rw [modulesFor] at h
    cases h
    rfl
  | cons nm rest ih =>
    intro l h
    rw [modulesFor] at h
    cases hm : moduleOf p nm with
    | none => rw [hm] at h; cases h
    | some m =>
      rw [hm] at h
      cases hr : modulesFor p rest with
      | none => rw [hr] at h; cases h
      | some ms =>
        rw [hr] at h
        cases h
        rw [List.filterMap_cons, hm, ← ih ms hr]
  
/-- A successful module-emission loop emits one module per key. -/
theorem modulesFor_length (p : Parameters) :
    ∀ (o l : List String), modulesFor p o = some l → l.length = o.length := by
  intro o
  induction o with
  | nil =>
    intro l h
    rw [modulesFor] at h
    cases h
    rfl
  | cons nm rest ih =>
    intro l h
    rw [modulesFor] at h
    cases hm : moduleOf p nm with
    | none => rw [hm] at h; cases h
    | some m =>
      rw [hm] at h
      cases hr : modulesFor p rest with
      | none => rw [hr] at h; cases h
      | some ms =>
        rw [hr] at h
        cases h
        simp [ih ms hr]

/-- C2 amended: `WriteVerilog` emits exactly one module per enumerated key
(so one per predicate group when the order enumerates the map's keys), and
the emitted modules are the same multiset under any two enumeration orders
of the same keys; only their order in the output — and hence the output
text — follows the map's unspecified iteration order. -/
theorem writeVerilog_modules_permutation (a : ASTNode) (p : Parameters)
    (o1 o2 : List String) (l1 l2 : List String)
    (hp : o1.Perm o2)
    (h1 : modulesFor p o1 = some l1)
    (h2 : modulesFor p o2 = some l2) :
    l1.Perm l2 ∧ l1.length = o1.length ∧
    WriteVerilog a p o1 =
      some (headerText p ++ writeSymbols p ++
        String.join (l1.map fun m => "\n" ++ m)) := by
  refine ⟨?_, modulesFor_length p o1 l1 h1, ?_⟩
  · rw [modulesFor_eq p o1 l1 h1, modulesFor_eq p o2 l2 h2]
    exact hp.filterMap (moduleOf p)
  · unfold WriteVerilog
    rw [h1]
    rfl

set_option maxRecDepth 40000 in
/-- Witness for `writeVerilog_modules_permutation` on the concrete
two-group table. -/
theorem writeVerilog_modules_permutation_witness :
    ((modulesFor cParams ["p", "q"]).getD []).Perm
      ((modulesFor cParams ["q", "p"]).getD []) ∧
    ((modulesFor cParams ["p", "q"]).getD []).length = 2 ∧
    WriteVerilog cFooA cParams ["p", "q"] =
      some (headerText cParams ++ writeSymbols cParams ++
        String.join (((modulesFor cParams ["p", "q"]).getD []).map fun m => "\n" ++ m)) :=
  writeVerilog_modules_permutation cFooA cParams ["p", "q"] ["q", "p"] _ _
    (by decide) rfl rfl

/-- Constraints already accumulated survive the rest of the substitution
loop: the loop only appends. -/
theorem mem_buildP2V_acc {x : String} :
    ∀ (l m : List (String × String)) (acc : List String),
      x ∈ acc → x ∈ (buildP2V l m acc).2
  | [], _, _, hx => hx
  | (p, v0) :: rest, m, acc, hx => by
    rw [buildP2V]
    cases hp : alookup p m with
    | some v => exact mem_buildP2V_acc rest m _ (List.mem_append_left _ hx)
    | none => exact mem_buildP2V_acc rest _ acc hx

/-- An existing binding survives the rest of the substitution loop: the map
only grows, and only with keys that are absent. -/
theorem buildP2V_keeps_binding {s v : String} :
    ∀ (l m : List (String × String)) (acc : List String),
      alookup s m = some v → alookup s (buildP2V l m acc).1 = some v
  | [], _, _, h => h
  | (p, v0) :: rest, m, acc, h => by
    rw [buildP2V]
    cases hp : alookup p m with
    | some w => exact buildP2V_keeps_binding rest m _ h
    | none =>
      have hps : p ≠ s := fun he => by rw [he, h] at hp; cases hp
      have h2 : alookup s ((p, v0) :: m) = some v := by
        rw [alookup, if_neg fun he => hps he.symm]
        exact h
      exact buildP2V_keeps_binding rest _ acc h2

/-- Once the map binds `s` to `vi`, every later argument pair `(s, vj)`
makes the loop emit the equality constraint "vj == vi". -/
theorem buildP2V_dup_emits {s vi vj : String} :
    ∀ (l2 l3 m : List (String × String)) (acc : List String),
      alookup s m = some vi →
      (vj ++ " == " ++ vi) ∈ (buildP2V (l2 ++ (s, vj) :: l3) m acc).2
  | [], l3, m, acc, h => by
    rw [List.nil_append, buildP2V, h]
    exact mem_buildP2V_acc l3 m _ (List.mem_append_right _ (List.mem_singleton.mpr rfl))
  | (p, v0) :: l2, l3, m, acc, h => by
    rw [List.cons_append, buildP2V]
    cases hp : alookup p m with
    | some w => exact buildP2V_dup_emits l2 l3 m _ h
    | none =>
      have hps : p ≠ s := fun he => by rw [he, h] at hp; cases hp
      have h2 : alookup s ((p, v0) :: m) = some vi := by
        rw [alookup, if_neg fun he => hps he.symm]
        exact h
      exact buildP2V_dup_emits l2 l3 _ acc h2

/-- A text whose first occurrence is at the pair `(s, vi)` and which recurs
at a later pair `(s, vj)` makes the loop emit "vj == vi". -/
theorem buildP2V_split_emits {s vi vj : String} :
    ∀ (u1 u2 u3 m : List (String × String)) (acc : List String),
      (∀ q ∈ u1, q.1 ≠ s) → alookup s m = none →
      (vj ++ " == " ++ vi) ∈ (buildP2V (u1 ++ (s, vi) :: u2 ++ (s, vj) :: u3) m acc).2
  | [], u2, u3, m, acc, _, h2 => by
    rw [List.nil_append]
    show (vj ++ " == " ++ vi) ∈
      (match alookup s m with
       | some v => buildP2V (u2 ++ (s, vj) :: u3) m (acc ++ [vi ++ " == " ++ v])
       | none => buildP2V (u2 ++ (s, vj) :: u3) ((s, vi) :: m) acc).2
    rw [h2]
    have hb : alookup s ((s, vi) :: m) = some vi := by rw [alookup, if_pos rfl]
    exact buildP2V_dup_emits u2 u3 _ acc hb
  | (p, v0) :: u1, u2, u3, m, acc, h1, h2 => by
    rw [List.cons_append]
    show (vj ++ " == " ++ vi) ∈
      (match alookup p m with
       | some v =>
         buildP2V (u1 ++ (s, vi) :: u2 ++ (s, vj) :: u3) m (acc ++ [v0 ++ " == " ++ v])
       | none =>
         buildP2V (u1 ++ (s, vi) :: u2 ++ (s, vj) :: u3) ((p, v0) :: m) acc).2
    have hps : p ≠ s := h1 (p, v0) (List.mem_cons_self _ _)
    cases hp : alookup p m with
    | some w =>
      exact buildP2V_split_emits u1 u2 u3 m _
        (fun q hq => h1 q (List.mem_cons_of_mem _ hq)) h2
    | none =>
      have h2b : alookup s ((p, v0) :: m) = none := by
        rw [alookup, if_neg fun he => hps he.symm]
        exact h2
      exact buildP2V_split_emits u1 u2 u3 _ acc
        (fun q hq => h1 q (List.mem_cons_of_mem _ hq)) h2b

/-- A text whose first occurrence is at the pair `(s, v)` ends up bound to
`v` in the final substitution map. -/
theorem buildP2V_binds_first {s v : String} :
    ∀ (u1 u2 m : List (String × String)) (acc : List String),
      (∀ q ∈ u1, q.1 ≠ s) → alookup s m = none →
      alookup s (buildP2V (u1 ++ (s, v) :: u2) m acc).1 = some v
  | [], u2, m, acc, _, h2 => by
    rw [List.nil_append, buildP2V, h2]
    have hb : alookup s ((s, v) :: m) = some v := by rw [alookup, if_pos rfl]
    exact buildP2V_keeps_binding u2 _ _ hb
  | (p, v0) :: u1, u2, m, acc, h1, h2 => by
    rw [List.cons_append, buildP2V]
    have hps : p ≠ s := h1 (p, v0) (List.mem_cons_self _ _)
    cases hp : alookup p m with
    | some w =>
      exact buildP2V_binds_first u1 u2 m _
        (fun q hq => h1 q (List.mem_cons_of_mem _ hq)) h2
    | none =>
      have h2b : alookup s ((p, v0) :: m) = none := by
        rw [alookup, if_neg fun he => hps he.symm]
        exact h2
      exact buildP2V_binds_first u1 u2 _ acc
        (fun q hq => h1 q (List.mem_cons_of_mem _ hq)) h2b

/-- When every key of the argument list is absent from the map and the keys
are pairwise distinct, the loop emits no equality constraint. -/
theorem buildP2V_nodup_no_constraints :
    ∀ (l m : List (String × String)) (acc : List String),
      (∀ q ∈ l, alookup q.1 m = none) → (l.map Prod.fst).Nodup →
      (buildP2V l m acc).2 = acc
  | [], _, _, _, _ => rfl
  | (p, v0) :: rest, m, acc, habs, hnd => by
    rw [buildP2V]
    have hp : alookup p m = none := habs (p, v0) (List.mem_cons_self _ _)
    rw [hp]
    have hnd2 : (rest.map Prod.fst).Nodup := (List.nodup_cons.mp hnd).2
    have hnotin : p ∉ rest.map Prod.fst := (List.nodup_cons.mp hnd).1
    refine buildP2V_nodup_no_constraints rest _ acc ?_ hnd2
    intro q hq
    have hqp : q.1 ≠ p := by
      intro he
      exact hnotin (he ▸ List.mem_map_of_mem Prod.fst hq)
    rw [alookup, if_neg hqp]
    exact habs q (List.mem_cons_of_mem _ hq)

/-- An uppercase first character rules out the lowercase and digit classes,
so the classifier's `switch` reaches its variable branch. -/
theorem upper_not_lower_digit (c : Char) (h : isUpperGo c = true) :
    isLowerGo c = false ∧ isDigitGo c = false := by
  simp only [isUpperGo, Bool.and_eq_true, decide_eq_true_eq] at h
  obtain ⟨h1, h2⟩ := h
  have hl : ¬('a' ≤ c) := fun hl => absurd (le_trans hl h2) (by decide)
  have hd : ¬(c ≤ '9') := fun hd => absurd (le_trans h1 hd) (by decide)
  constructor
  · simp only [isLowerGo, Bool.and_eq_false_iff]
    left
    simpa using hl
  · simp only [isDigitGo, Bool.and_eq_false_iff]
    right
    simpa using hd

/-- A digit first character rules out the lowercase class. -/
theorem digit_not_lower (c : Char) (h : isDigitGo c = true) :
    isLowerGo c = false := by
  simp only [isDigitGo, Bool.and_eq_true, decide_eq_true_eq] at h
  have hl : ¬('a' ≤ c) := fun hl => absurd (le_trans hl h.2) (by decide)
  simp only [isLowerGo, Bool.and_eq_false_iff]
  left
  simpa using hl

/-- The classifier on a symbolic-constant argument (lowercase head). -/
theorem classifyArg_lower (a v : String) (ch : Char) (rest : List Char)
    (ha : a.data = ch :: rest) (h : isLowerGo ch = true) :
    classifyArg a v = some [v ++ " == `" ++ a] := by
  unfold classifyArg
  rw [ha]
  show (if isLowerGo ch = true then some [v ++ " == `" ++ a]
    else if isDigitGo ch = true then some [v ++ " == " ++ a]
    else if isUpperGo ch = true then some ([] : List String) else none)
    = some [v ++ " == `" ++ a]
  rw [if_pos h]

/-- The classifier on a numeral argument (digit head). -/
theorem classifyArg_digit (a v : String) (ch : Char) (rest : List Char)
    (ha : a.data = ch :: rest) (h : isDigitGo ch = true) :
    classifyArg a v = some [v ++ " == " ++ a] := by
  unfold classifyArg
  rw [ha]
  show (if isLowerGo ch = true then some [v ++ " == `" ++ a]
    else if isDigitGo ch = true then some [v ++ " == " ++ a]
    else if isUpperGo ch = true then some ([] : List String) else none)
    = some [v ++ " == " ++ a]
  rw [if_neg (by simp [digit_not_lower ch h]), if_pos h]

/-- The classifier on a variable argument (uppercase head): no constraint. -/
theorem classifyArg_upper (a v : String) (h : headIsUpper a = true) :
    classifyArg a v = some [] := by
  unfold classifyArg
  unfold headIsUpper at h
  cases ha : a.data with
  | nil => rw [ha] at h; cases h
  | cons ch rest =>
    rw [ha] at h
    obtain ⟨h1, h2⟩ := upper_not_lower_digit ch h
    show (if isLowerGo ch = true then some [v ++ " == `" ++ a]
      else if isDigitGo ch = true then some [v ++ " == " ++ a]
      else if isUpperGo ch = true then some ([] : List String) else none)
      = some []
    rw [if_neg (by simp [h1]), if_neg (by simp [h2]), if_pos h]

/-- The classifier aborts exactly when the first character is in none of the
three classes (or the text is empty, where Go would panic). -/
theorem classifyArg_fatal (a v : String) (ch : Char) (rest : List Char)
    (ha : a.data = ch :: rest) (h1 : isLowerGo ch = false)
    (h2 : isDigitGo ch = false) (h3 : isUpperGo ch = false) :
    classifyArg a v = none := by
  unfold classifyArg
  rw [ha]
  show (if isLowerGo ch = true then some [v ++ " == `" ++ a]
    else if isDigitGo ch = true then some [v ++ " == " ++ a]
    else if isUpperGo ch = true then some ([] : List String) else none)
    = none
  rw [if_neg (by simp [h1]), if_neg (by simp [h2]), if_neg (by simp [h3])]

/-- The whole classification loop succeeds with no constraints when every
argument is a variable. -/
theorem classifyAll_all_vars :
    ∀ (l : List (String × String)), (∀ q ∈ l, headIsUpper q.1 = true) →
      classifyAll l = some []
  | [], _ => rfl
  | (a, v) :: rest, h => by
    rw [classifyAll]
    rw [classifyArg_upper a v (h (a, v) (List.mem_cons_self _ _)),
        classifyAll_all_vars rest fun q hq => h q (List.mem_cons_of_mem _ hq)]
    rfl

/-- One non-classifiable argument anywhere makes the whole classification
loop abort. -/
theorem classifyAll_fatal :
    ∀ (l : List (String × String)) (q : String × String),
      q ∈ l → classifyArg q.1 q.2 = none → classifyAll l = none
  | (a, v) :: rest, q, hq, hn => by
    rw [classifyAll]
    rcases List.mem_cons.mp hq with he | hm
    · rw [he] at hn
      rw [hn]
      rfl
    · cases hc : classifyArg a v with
      | none => rfl
      | some c1 =>
        rw [classifyAll_fatal rest q hm hn]
        rfl

/-- A successful identifier loop yields one identifier per term. -/
theorem argIds_length :
    ∀ (l : List ASTNode) (i : Nat) (r : List String),
      argIds l i = some r → r.length = l.length
  | [], _, r, h => by
    rw [argIds] at h
    cases h
    rfl
  | _ :: rest, i, r, h => by
    rw [argIds] at h
    cases hv : numToVerVar i with
    | none => rw [hv] at h; cases h
    | some v =>
      rw [hv] at h
      cases hr : argIds rest (i + 1) with
      | none => rw [hr] at h; cases h
      | some vs =>
        rw [hr] at h
        have h2 := Option.some.inj h
        subst h2
        simp [argIds_length rest (i + 1) vs hr]

/-- The identifier at position `k` of a successful identifier loop started
at `i` is the encoder's identifier for number `i + k`. -/
theorem argIds_getD :
    ∀ (l : List ASTNode) (i : Nat) (r : List String) (k : Nat),
      argIds l i = some r → k < l.length → numToVerVar (i + k) = some (r.getD k "")
  | [], _, _, k, _, hk => absurd hk (by simp)
  | _ :: rest, i, r, k, h, hk => by
    rw [argIds] at h
    cases hv : numToVerVar i with
    | none => rw [hv] at h; cases h
    | some v =>
      rw [hv] at h
      cases hr : argIds rest (i + 1) with
      | none => rw [hr] at h; cases h
      | some vs =>
        rw [hr] at h
        have h2 := Option.some.inj h
        subst h2
        cases k with
        | zero => simpa using hv
        | succ k2 =>
          rw [List.getD_cons_succ]
          have hk2 : k2 < rest.length := by
            simp only [List.length_cons] at hk
            omega
          have hrec := argIds_getD rest (i + 1) vs k2 hr hk2
          rw [(by omega : i + (k2 + 1) = i + 1 + k2)]
          exact hrec

/-- Characterization of a successful `args`: the clause has a head, the
Prolog arguments are the head terms' raw texts, and the Verilog identifiers
come from the numbering loop started at 0. -/
theorem args_some (c : ASTNode) (pa va : List String) (h : args c = some (pa, va)) :
    ∃ pred rest, c.children = pred :: rest ∧
      pa = (pred.children.drop 1).map ASTNode.text ∧
      argIds (pred.children.drop 1) 0 = some va := by
  unfold args at h
  cases hc : c.children with
  | nil => rw [hc] at h; cases h
  | cons pred rest =>
    rw [hc] at h
    have h3 : (do
        let vArgs ← argIds (pred.children.drop 1) 0
        some ((pred.children.drop 1).map fun a => a.text, vArgs))
        = some (pa, va) := h
    cases hv : argIds (pred.children.drop 1) 0 with
    | none => rw [hv] at h3; cases h3
    | some va2 =>
      rw [hv] at h3
      have h4 := Option.some.inj h3
      have hpa : (pred.children.drop 1).map ASTNode.text = pa := congrArg Prod.fst h4
      have hva : va2 = va := congrArg Prod.snd h4
      exact ⟨pred, rest, rfl, hpa.symm, hva ▸ hv⟩

/-- A successful `args` yields as many identifiers as argument texts. -/
theorem args_lengths (c : ASTNode) (pa va : List String)
    (h : args c = some (pa, va)) : va.length = pa.length := by
  obtain ⟨pred, rest, _, hpa, hAI⟩ := args_some c pa va h
  rw [argIds_length (pred.children.drop 1) 0 va hAI, hpa, List.length_map]

/-- Element at the split point of an append. -/
theorem getD_at_split {α : Type} (d : α) :
    ∀ (l1 : List α) (x : α) (l2 : List α), (l1 ++ x :: l2).getD l1.length d = x
  | [], _, _ => rfl
  | y :: l1, x, l2 => by
    rw [List.cons_append, List.length_cons, List.getD_cons_succ]
    exact getD_at_split d l1 x l2

/-- Componentwise reading of a zip element. -/
theorem zip_getD {α β : Type} (da : α) (db : β) :
    ∀ (l1 : List α) (l2 : List β) (k : Nat), k < l1.length → k < l2.length →
      (l1.zip l2).getD k (da, db) = (l1.getD k da, l2.getD k db)
  | [], _, k, h1, _ => absurd h1 (by simp)
  | _ :: _, [], k, _, h2 => absurd h2 (by simp)
  | a :: l1, b :: l2, 0, _, _ => rfl
  | a :: l1, b :: l2, k + 1, h1, h2 => by
    rw [List.zip_cons_cons, List.getD_cons_succ, List.getD_cons_succ, List.getD_cons_succ]
    exact zip_getD da db l1 l2 k (by simpa using h1) (by simpa using h2)

/-- C3: a clause head listing the same variable name at two argument
positions — the pairing of head texts with generated identifiers splitting
as a first occurrence `(s, vi)` and a later occurrence `(s, vj)` — makes
the clause compiler emit the equality "vj == vi" among the
repeated-argument constraints; the clause's constraint list is exactly
those constraints followed by the `process` constraints (head literal
matches, then body constraints), so the equality precedes every body
constraint; and `vi`, `vj` are the encoder's identifiers for the two
positions. -/
theorem headDupConstraint (c : ASTNode) (pArgs vArgs : List String)
    (hargs : args c = some (pArgs, vArgs))
    (u1 u2 u3 : List (String × String)) (s vi vj : String)
    (hsplit : pArgs.zip vArgs = u1 ++ (s, vi) :: u2 ++ (s, vj) :: u3)
    (hfirst : ∀ q ∈ u1, q.1 ≠ s)
    (hvar : headIsUpper s = true)
    (procCons : List String)
    (hproc : process c (buildP2V (pArgs.zip vArgs) [] []).1 = some procCons) :
    (vj ++ " == " ++ vi) ∈ (buildP2V (pArgs.zip vArgs) [] []).2 ∧
    clauseValid c = some ((buildP2V (pArgs.zip vArgs) [] []).2 ++ procCons) ∧
    numToVerVar u1.length = some vi ∧
    numToVerVar (u1.length + 1 + u2.length) = some vj := by
  have hmem : (vj ++ " == " ++ vi) ∈ (buildP2V (pArgs.zip vArgs) [] []).2 := by
    rw [hsplit]
    exact buildP2V_split_emits u1 u2 u3 [] [] hfirst rfl
  obtain ⟨pred, rest, hc, hpa, hAI⟩ := args_some c pArgs vArgs hargs
  have hlen : vArgs.length = pArgs.length := args_lengths c pArgs vArgs hargs
  have hzlen : (pArgs.zip vArgs).length = pArgs.length := by
    rw [List.length_zip pArgs vArgs, hlen]
    omega
  have hslen : (pArgs.zip vArgs).length
      = u1.length + 1 + u2.length + 1 + u3.length := by
    rw [hsplit]
    simp only [List.length_append, List.length_cons]
    omega
  have hj1 : u1.length < pArgs.length := by omega
  have hj2 : u1.length + 1 + u2.length < pArgs.length := by omega
  have hL : (u1 ++ (s, vi) :: u2).length = u1.length + 1 + u2.length := by
    rw [List.length_append, List.length_cons]
    omega
  have hg1 : (pArgs.zip vArgs).getD u1.length ("", "") = (s, vi) := by
    rw [hsplit, List.getD_append _ _ _ _ (by rw [hL]; omega)]
    exact getD_at_split ("", "") u1 (s, vi) u2
  have hg2 : (pArgs.zip vArgs).getD (u1.length + 1 + u2.length) ("", "") = (s, vj) := by
    rw [hsplit, ← hL]
    exact getD_at_split ("", "") (u1 ++ (s, vi) :: u2) (s, vj) u3
  have hz1 := zip_getD "" "" pArgs vArgs u1.length hj1 (by omega)
  have hz2 := zip_getD "" "" pArgs vArgs (u1.length + 1 + u2.length) hj2 (by omega)
  rw [hz1] at hg1
  rw [hz2] at hg2
  have hvi : vArgs.getD u1.length "" = vi := congrArg Prod.snd hg1
  have hvj : vArgs.getD (u1.length + 1 + u2.length) "" = vj := congrArg Prod.snd hg2
  have htlen : (pred.children.drop 1).length = pArgs.length := by
    rw [hpa, List.length_map]
  have hn1 : numToVerVar u1.length = some vi := by
    have := argIds_getD (pred.children.drop 1) 0 vArgs u1.length hAI (by omega)
    rw [Nat.zero_add, hvi] at this
    exact this
  have hn2 : numToVerVar (u1.length + 1 + u2.length) = some vj := by
    have := argIds_getD (pred.children.drop 1) 0 vArgs (u1.length + 1 + u2.length)
      hAI (by omega)
    rw [Nat.zero_add, hvj] at this
    exact this
  refine ⟨hmem, ?_, hn1, hn2⟩
  unfold clauseValid
  rw [hargs]
  have hemp : ((buildP2V (pArgs.zip vArgs) [] []).2 ++ procCons).isEmpty = false := by
    cases hbp : (buildP2V (pArgs.zip vArgs) [] []).2 with
    | nil => rw [hbp] at hmem; cases hmem
    | cons x xs => rfl
  show (do
      let procCons2 ← process c (buildP2V (pArgs.zip vArgs) [] []).1
      some (if ((buildP2V (pArgs.zip vArgs) [] []).2 ++ procCons2).isEmpty
        then ["1'b1"]
        else (buildP2V (pArgs.zip vArgs) [] []).2 ++ procCons2))
    = some ((buildP2V (pArgs.zip vArgs) [] []).2 ++ procCons)
  rw [hproc]
  show some (if ((buildP2V (pArgs.zip vArgs) [] []).2 ++ procCons).isEmpty
      then ["1'b1"]
      else (buildP2V (pArgs.zip vArgs) [] []).2 ++ procCons)
    = some ((buildP2V (pArgs.zip vArgs) [] []).2 ++ procCons)
  rw [hemp]
  rfl

/-- The fact `foo(X, X).`: a head repeating the variable `X` at both
argument positions, with an empty body. -/
def cFooXX : ASTNode :=
  cClause (cHead "foo" [cTerm "X", cTerm "X"]) []

/-- Witness for `headDupConstraint` on `foo(X, X).`. -/
theorem headDupConstraint_witness :
    ("$B" ++ " == " ++ "$A") ∈ (buildP2V (["X", "X"].zip ["$A", "$B"]) [] []).2 ∧
    clauseValid cFooXX = some ((buildP2V (["X", "X"].zip ["$A", "$B"]) [] []).2 ++ []) ∧
    numToVerVar 0 = some "$A" ∧
    numToVerVar (0 + 1 + 0) = some "$B" :=
  headDupConstraint cFooXX ["X", "X"] ["$A", "$B"] (by decide)
    [] [] [] "X" "$A" "$B" (by decide) (by decide) (by decide) [] (by decide)

/-- C9: for any clause, the substitution map binds every head argument's
raw text — whatever its leading-character class — to the identifier of the
text's first occurrence position; a head repeating a symbolic-constant or
numeral text at two positions therefore emits the same equality constraint
a repeated variable does. -/
theorem p2vBindsEveryText (c : ASTNode) (pArgs vArgs : List String)
    (hargs : args c = some (pArgs, vArgs)) :
    (∀ (u1 u2 : List (String × String)) (s v : String),
      pArgs.zip vArgs = u1 ++ (s, v) :: u2 → (∀ q ∈ u1, q.1 ≠ s) →
      alookup s (buildP2V (pArgs.zip vArgs) [] []).1 = some v) ∧
    (∀ (u1 u2 u3 : List (String × String)) (s vi vj : String),
      pArgs.zip vArgs = u1 ++ (s, vi) :: u2 ++ (s, vj) :: u3 →
      (∀ q ∈ u1, q.1 ≠ s) → headIsLowerOrDigit s = true →
      (vj ++ " == " ++ vi) ∈ (buildP2V (pArgs.zip vArgs) [] []).2) := by
  constructor
  · intro u1 u2 s v hs hf
    rw [hs]
    exact buildP2V_binds_first u1 u2 [] [] hf rfl
  · intro u1 u2 u3 s vi vj hs hf hcl
    rw [hs]
    exact buildP2V_split_emits u1 u2 u3 [] [] hf rfl

/-- The fact `foo(a, a).`: a head repeating the symbolic constant `a` at
both argument positions. -/
def cFooAA : ASTNode :=
  cClause (cHead "foo" [cAtom "a", cAtom "a"]) []

/-- Witness for `p2vBindsEveryText` on `foo(a, a).`. -/
theorem p2vBindsEveryText_witness :
    alookup "a" (buildP2V (["a", "a"].zip ["$A", "$B"]) [] []).1 = some "$A" ∧
    ("$B" ++ " == " ++ "$A") ∈ (buildP2V (["a", "a"].zip ["$A", "$B"]) [] []).2 :=
  ⟨(p2vBindsEveryText cFooAA ["a", "a"] ["$A", "$B"] (by decide)).1
      [] [("a", "$B")] "a" "$A" (by decide) (by decide),
   (p2vBindsEveryText cFooAA ["a", "a"] ["$A", "$B"] (by decide)).2
      [] [] [] "a" "$A" "$B" (by decide) (by decide) (by decide)⟩

/-- A clause with an empty body and all-variable arguments contributes no
constraints through `process`, whatever the substitution map. -/
theorem process_all_vars (c : ASTNode) (pArgs vArgs : List String)
    (hargs : args c = some (pArgs, vArgs))
    (hbody : c.children.drop 1 = [])
    (hvar : ∀ s ∈ pArgs, headIsUpper s = true)
    (p2v : List (String × String)) :
    process c p2v = some [] := by
  unfold process
  rw [hargs]
  show (do
      let headCons ← classifyAll (pArgs.zip vArgs)
      let bodyCons ← bodyExprs (c.children.drop 1) p2v
      some (headCons ++ bodyCons)) = some []
  have hca : classifyAll (pArgs.zip vArgs) = some [] := by
    apply classifyAll_all_vars
    intro q hq
    obtain ⟨a, v⟩ := q
    exact hvar a (List.of_mem_zip hq).1
  rw [hca, hbody]
  rfl

/-- C8: a clause with an empty body whose head arguments are pairwise
distinct and all classified as variables (uppercase first character) gets
the single substituted literal "1'b1" constraint: the emitted validity
vector has width 1 ("wire [0:0]") and its only bit is assigned the
constant-true literal, so the clause's AND-reduction is constantly true. -/
theorem uselessClauseTrue (c : ASTNode) (pArgs vArgs : List String)
    (hargs : args c = some (pArgs, vArgs))
    (hbody : c.children.drop 1 = [])
    (hnd : pArgs.Nodup)
    (hvar : ∀ s ∈ pArgs, headIsUpper s = true) :
    clauseValid c = some ["1'b1"] ∧
    ∀ (p : Parameters) (nm : String) (k : Nat),
      writeClauseBody p nm k c =
        some ("  wire [" ++ toString 0 ++ ":0] $v" ++ toString (k + 1) ++ ";\n" ++
          String.join ((["1'b1"] : List String).enum.map fun iv =>
            "  assign $v" ++ toString (k + 1) ++ "[" ++ toString iv.1 ++ "] = " ++
              iv.2 ++ ";\n")) := by
  have hlen : vArgs.length = pArgs.length := args_lengths c pArgs vArgs hargs
  have hfst : (pArgs.zip vArgs).map Prod.fst = pArgs :=
    List.map_fst_zip pArgs vArgs (by omega)
  have hdup : (buildP2V (pArgs.zip vArgs) [] []).2 = [] := by
    apply buildP2V_nodup_no_constraints
    · intro q hq
      rfl
    · rw [hfst]
      exact hnd
  have hproc := process_all_vars c pArgs vArgs hargs hbody hvar
    (buildP2V (pArgs.zip vArgs) [] []).1
  have hcv : clauseValid c = some ["1'b1"] := by
    unfold clauseValid
    rw [hargs]
    show (do
        let procCons2 ← process c (buildP2V (pArgs.zip vArgs) [] []).1
        some (if ((buildP2V (pArgs.zip vArgs) [] []).2 ++ procCons2).isEmpty
          then ["1'b1"]
          else (buildP2V (pArgs.zip vArgs) [] []).2 ++ procCons2))
      = some ["1'b1"]
    rw [hproc, hdup]
    rfl
  refine ⟨hcv, fun p nm k => ?_⟩
  unfold writeClauseBody
  rw [hcv]
  rfl

/-- The useless fact `stupid(A, B, C).` that accepts all inputs. -/
def cStupid : ASTNode :=
  cClause (cHead "stupid" [cTerm "A", cTerm "B", cTerm "C"]) []

/-- Witness for `uselessClauseTrue` on `stupid(A, B, C).`. -/
theorem uselessClauseTrue_witness :
    clauseValid cStupid = some ["1'b1"] ∧
    writeClauseBody cParams "stupid" 0 cStupid =
      some ("  wire [" ++ toString 0 ++ ":0] $v" ++ toString (0 + 1) ++ ";\n" ++
        String.join ((["1'b1"] : List String).enum.map fun iv =>
          "  assign $v" ++ toString (0 + 1) ++ "[" ++ toString iv.1 ++ "] = " ++
            iv.2 ++ ";\n")) :=
  ⟨(uselessClauseTrue cStupid ["A", "B", "C"] ["$A", "$B", "$C"] (by decide)
      rfl (by decide) (by decide)).1,
   (uselessClauseTrue cStupid ["A", "B", "C"] ["$A", "$B", "$C"] (by decide)
      rfl (by decide) (by decide)).2 cParams "stupid" 0⟩

/-- A member of the first list appears as a first component of the zip when
the lists have equal lengths. -/
theorem mem_zip_of_mem_left {s : String} :
    ∀ (l1 l2 : List String), s ∈ l1 → l1.length = l2.length →
      ∃ v, (s, v) ∈ l1.zip l2
  | [], _, hs, _ => absurd hs (by simp)
  | _ :: _, [], _, hl => by simp at hl
  | s2 :: l1, v2 :: l2, hs, hl => by
    rcases List.mem_cons.mp hs with he | hm
    · exact ⟨v2, by rw [List.zip_cons_cons, ← he]; exact List.mem_cons_self _ _⟩
    · obtain ⟨v, hv⟩ := mem_zip_of_mem_left l1 l2 hm (by simpa using hl)
      exact ⟨v, by rw [List.zip_cons_cons]; exact List.mem_cons_of_mem _ hv⟩

/-- C10: a head argument whose text's first character is in none of the
three classes (not an ASCII lowercase letter, digit, or uppercase letter —
e.g. an underscore or punctuation) reaches no constraint-emitting branch:
the classifier takes the unconditional internal fatal path, and the whole
of `process` aborts for a clause containing such an argument; a first
character in one of the three classes never reaches that branch. -/
theorem classifyFatalOnOther :
    (∀ (a v : String) (ch : Char) (rest : List Char),
      a.data = ch :: rest →
      isLowerGo ch = false → isDigitGo ch = false → isUpperGo ch = false →
      classifyArg a v = none) ∧
    (∀ (a v : String) (ch : Char) (rest : List Char),
      a.data = ch :: rest →
      (isLowerGo ch = true ∨ isDigitGo ch = true ∨ isUpperGo ch = true) →
      ∃ r, classifyArg a v = some r) ∧
    (∀ (c : ASTNode) (pArgs vArgs : List String)
       (p2v : List (String × String)) (s : String) (ch : Char) (rest : List Char),
      args c = some (pArgs, vArgs) → s ∈ pArgs → s.data = ch :: rest →
      isLowerGo ch = false → isDigitGo ch = false → isUpperGo ch = false →
      process c p2v = none) := by
  refine ⟨classifyArg_fatal, ?_, ?_⟩
  · intro a v ch rest ha hcl
    rcases hcl with h | h | h
    · exact ⟨[v ++ " == `" ++ a], classifyArg_lower a v ch rest ha h⟩
    · exact ⟨[v ++ " == " ++ a], classifyArg_digit a v ch rest ha h⟩
    · refine ⟨[], classifyArg_upper a v ?_⟩
      unfold headIsUpper
      rw [ha]
      exact h
  · intro c pArgs vArgs p2v s ch rest hargs hmem ha h1 h2 h3
    unfold process
    rw [hargs]
    show (do
        let headCons ← classifyAll (pArgs.zip vArgs)
        let bodyCons ← bodyExprs (c.children.drop 1) p2v
        some (headCons ++ bodyCons)) = none
    have hlen : vArgs.length = pArgs.length := args_lengths c pArgs vArgs hargs
    obtain ⟨v, hv⟩ := mem_zip_of_mem_left pArgs vArgs hmem (by omega)
    have hca : classifyAll (pArgs.zip vArgs) = none :=
      classifyAll_fatal (pArgs.zip vArgs) (s, v) hv
        (classifyArg_fatal s v ch rest ha h1 h2 h3)
    rw [hca]
    rfl

/-- The fact `foo(_X).`: a head argument starting with an underscore. -/
def cUnder : ASTNode :=
  cClause (cHead "foo" [cTerm "_X"]) []

/-- Witness for `classifyFatalOnOther` on the underscore argument. -/
theorem classifyFatalOnOther_witness :
    classifyArg "_X" "$A" = none ∧
    (∃ r, classifyArg "X" "$A" = some r) ∧
    process cUnder [] = none :=
  ⟨classifyFatalOnOther.1 "_X" "$A" (Char.ofNat 95) ['X'] (by decide) (by decide)
      (by decide) (by decide),
   classifyFatalOnOther.2.1 "X" "$A" 'X' [] (by decide)
     (Or.inr (Or.inr (by decide))),
   classifyFatalOnOther.2.2 cUnder ["_X"] ["$A"] [] "_X" (Char.ofNat 95) ['X']
     (by decide) (by decide) (by decide) (by decide) (by decide) (by decide)⟩

/-- Appending one more element to a nonempty join adds one separator and the
element (the Go loop prints the separator before every element but the
first). -/
theorem commaJoin_snoc (sep : String) (xs : List String) (x : String)
    (h : xs ≠ []) : commaJoin sep (xs ++ [x]) = commaJoin sep xs ++ sep ++ x := by
  unfold commaJoin
  rw [List.enum_append]
  have he : List.enumFrom xs.length [x] = [(xs.length, x)] := rfl
  rw [he, List.foldl_append]
  have hpos : xs.length > 0 := List.length_pos.mpr h
  show List.foldl _ _ [(xs.length, x)] = _
  rw [List.foldl_cons, List.foldl_nil]
  rw [if_pos hpos]

/-- Modelled from the spec: the k-way logical OR of the clauses'
AND-reduced validity bits "&$v1" .. "&$vk", in clause order, with no OR
operator when k is 0 or 1. -/
def orSpec : Nat → String
  | 0 => ""
  | 1 => "&$v1"
  | n + 2 => orSpec (n + 1) ++ " | " ++ ("&$v" ++ toString (n + 2))

/-- The emitted OR loop agrees with the spec's k-way OR at every size. -/
theorem orReduction_eq_orSpec : ∀ k : Nat, orReduction k = orSpec k
  | 0 => rfl
  | 1 => rfl
  | n + 2 => by
    unfold orReduction
    rw [List.range_succ, List.map_append]
    simp only [List.map_cons, List.map_nil]
    rw [commaJoin_snoc " | " _ _ (by simp [List.range_succ])]
    have hr : commaJoin " | " (List.map (fun i => "&$v" ++ toString (i + 1))
        (List.range (n + 1))) = orSpec (n + 1) := orReduction_eq_orSpec (n + 1)
    rw [hr]
    rfl

/-- A successful clause loop emits one wire/assign block per clause. -/
theorem clauseBodies_length (p : Parameters) (nm : String) :
    ∀ (i : Nat) (cs : List ASTNode) (bs : List String),
      clauseBodies p nm i cs = some bs → bs.length = cs.length
  | _, [], bs, h => by
    rw [clauseBodies] at h
    cases h
    rfl
  | i, c :: rest, bs, h => by
    rw [clauseBodies] at h
    cases hb : writeClauseBody p nm i c with
    | none => rw [hb] at h; cases h
    | some b =>
      rw [hb] at h
      cases hr : clauseBodies p nm (i + 1) rest with
      | none => rw [hr] at h; cases h
      | some bs2 =>
        rw [hr] at h
        have h2 := Option.some.inj h
        subst h2
        simp [clauseBodies_length p nm (i + 1) rest bs2 hr]

/-- C4: the module's output validity is the k-way logical OR of the k
clauses' AND-reduced validity bits "&$v1" .. "&$vk" in clause order; for a
one-clause group it is exactly "&$v1" with no OR operator; and every
successfully emitted module is its header, one wire/assign block per clause
in clause order, the output assignment of that OR, and "endmodule". -/
theorem clauseGroupOr :
    (∀ k : Nat, orReduction k = orSpec k) ∧
    orReduction 1 = "&$v1" ∧
    (Char.ofNat 124) ∉ (orReduction 1).data ∧
    (∀ (p : Parameters) (nm : String) (cs : List ASTNode) (out : String),
      writeClauseGroup p nm cs = some out →
      ∃ hdr bodies, writeClauseGroupHeader p nm cs = some hdr ∧
        clauseBodies p nm 0 cs = some bodies ∧
        bodies.length = cs.length ∧
        out = hdr ++ String.join bodies ++
          "  assign $valid = " ++ orReduction cs.length ++ ";\nendmodule\n") := by
  refine ⟨orReduction_eq_orSpec, rfl, by decide, ?_⟩
  intro p nm cs out h
  unfold writeClauseGroup at h
  cases hh : writeClauseGroupHeader p nm cs with
  | none => rw [hh] at h; cases h
  | some hdr =>
    rw [hh] at h
    cases hb : clauseBodies p nm 0 cs with
    | none => rw [hb] at h; cases h
    | some bodies =>
      rw [hb] at h
      have h2 := Option.some.inj h
      exact ⟨hdr, bodies, rfl, rfl, clauseBodies_length p nm 0 cs bodies hb, h2.symm⟩

set_option maxRecDepth 40000 in
/-- Witness for `clauseGroupOr` on the concrete one-clause group "p". -/
theorem clauseGroupOr_witness :
    ∃ hdr bodies, writeClauseGroupHeader cParams "p" [cFact "p"] = some hdr ∧
      clauseBodies cParams "p" 0 [cFact "p"] = some bodies ∧
      bodies.length = [cFact "p"].length ∧
      (writeClauseGroup cParams "p" [cFact "p"]).getD "" =
        hdr ++ String.join bodies ++
        "  assign $valid = " ++ orReduction [cFact "p"].length ++ ";\nendmodule\n" :=
  clauseGroupOr.2.2.2 cParams "p" [cFact "p"]
    ((writeClauseGroup cParams "p" [cFact "p"]).getD "") rfl
